import Mathlib

/-!
Verification of the Sansar-Blender-Tools VAT encoder (`src/__init__.py`).

The development shallowly embeds the algorithmic core of the addon:

* `get_vertex_data` (lines 193-267): the frame-delta accumulator producing the
  linear Offset and Rotation pixel buffers, including the header pixel.
* `DecodeMorton2X` / `DecodeMorton2Y` (lines 296-310): the Morton (Z-order)
  index decoders.
* the capacity checks and the layout packing done in
  `OBJECT_OT_ProcessAnimMeshes.execute` (lines 428-537).

Real-number quantities (positions, normals, tangents, pixel channels) are
modelled as exact rationals (`ℚ`); the Python code computes with floats, and
all properties checked here are the exact-arithmetic statements of the spec.
Library calls into Blender's `mathutils` (vector normalisation, 3x3 matrix
inverse, matrix-to-quaternion conversion) are embedded following Blender's
`math_rotation.c` / `math_matrix.c` semantics: `inverted` is adjugate over
determinant, and `to_quaternion` is `mat3_to_quat` (normalisation of the
three stored vectors, negation on negative determinant, then Mike Day's
branch method).  mathutils stores the Python-view matrix column-major
(Python `M[r][c]` is C `mat[c][r]`) and passes the buffer straight into the
C conversion, so the embedding reads the C code's `mat[i][j]` as the
Python-view entry `M[j][i]` and normalises Python-view columns.  `sqrt` is
modelled by `ratSqrt`, which is exact on perfect squares (every use in a
theorem below evaluates it on a perfect square); Blender would raise on a
singular matrix where our `inverted` returns the zero matrix, a case no
theorem below relies on.
-/

/-- A 3-component vector with exact rational coordinates (models
`mathutils.Vector` restricted to the operations the addon uses). -/
structure Vec3 where
  x : ℚ
  y : ℚ
  z : ℚ
deriving DecidableEq, Repr

/-- Componentwise difference, `u - v` on `mathutils.Vector`. -/
def Vec3.sub (u v : Vec3) : Vec3 := ⟨u.x - v.x, u.y - v.y, u.z - v.z⟩

/-- Dot product. -/
def Vec3.dot (u v : Vec3) : ℚ := u.x * v.x + u.y * v.y + u.z * v.z

/-- Cross product, `u.cross(v)` on `mathutils.Vector`. -/
def Vec3.cross (u v : Vec3) : Vec3 :=
  ⟨u.y * v.z - u.z * v.y, u.z * v.x - u.x * v.z, u.x * v.y - u.y * v.x⟩

/-- Scalar multiple. -/
def Vec3.smul (c : ℚ) (v : Vec3) : Vec3 := ⟨c * v.x, c * v.y, c * v.z⟩

/-- Largest `j ≤ k` with `j*j ≤ n` (structural worker for `isqrt`). -/
def isqrtFrom : ℕ → ℕ → ℕ
  | 0, _ => 0
  | k + 1, n => if (k + 1) * (k + 1) ≤ n then k + 1 else isqrtFrom k n

/-- Integer square root (floor), by structural descent. -/
def isqrt (n : ℕ) : ℕ := isqrtFrom n n

/-- Exact rational square root: on a square of a rational it returns the
nonnegative exact root (model of float `sqrt`, which the embedded theorems
only ever evaluate on perfect squares). -/
def ratSqrt (q : ℚ) : ℚ :=
  (isqrt q.num.toNat : ℚ) / (isqrt q.den : ℚ)

/-- `v.normalized()` of `mathutils.Vector`: divide by the length, and return
the zero vector when the length is zero. -/
def Vec3.normalized (v : Vec3) : Vec3 :=
  let len := ratSqrt (v.dot v)
  if len = 0 then ⟨0, 0, 0⟩ else Vec3.smul (1 / len) v

/-- A 3x3 matrix with rational entries, row major: `mij` is row `i`,
column `j` (rows are what `mathutils.Matrix((r0, r1, r2))` is built from). -/
structure Mat3 where
  m00 : ℚ
  m01 : ℚ
  m02 : ℚ
  m10 : ℚ
  m11 : ℚ
  m12 : ℚ
  m20 : ℚ
  m21 : ℚ
  m22 : ℚ
deriving DecidableEq, Repr

/-- Build a matrix from its three rows, as `mathutils.Matrix((N, T, B))`. -/
def Mat3.ofRows (r0 r1 r2 : Vec3) : Mat3 :=
  ⟨r0.x, r0.y, r0.z, r1.x, r1.y, r1.z, r2.x, r2.y, r2.z⟩

/-- Matrix product `a @ b`. -/
def Mat3.mul (a b : Mat3) : Mat3 where
  m00 := a.m00 * b.m00 + a.m01 * b.m10 + a.m02 * b.m20
  m01 := a.m00 * b.m01 + a.m01 * b.m11 + a.m02 * b.m21
  m02 := a.m00 * b.m02 + a.m01 * b.m12 + a.m02 * b.m22
  m10 := a.m10 * b.m00 + a.m11 * b.m10 + a.m12 * b.m20
  m11 := a.m10 * b.m01 + a.m11 * b.m11 + a.m12 * b.m21
  m12 := a.m10 * b.m02 + a.m11 * b.m12 + a.m12 * b.m22
  m20 := a.m20 * b.m00 + a.m21 * b.m10 + a.m22 * b.m20
  m21 := a.m20 * b.m01 + a.m21 * b.m11 + a.m22 * b.m21
  m22 := a.m20 * b.m02 + a.m21 * b.m12 + a.m22 * b.m22

/-- Determinant. -/
def Mat3.det (a : Mat3) : ℚ :=
  a.m00 * (a.m11 * a.m22 - a.m12 * a.m21)
    - a.m01 * (a.m10 * a.m22 - a.m12 * a.m20)
    + a.m02 * (a.m10 * a.m21 - a.m11 * a.m20)

/-- `mathutils.Matrix.inverted()`: adjugate over determinant.  (Blender raises
on a singular matrix; with rational `1/0 = 0` this model returns the zero
matrix there instead — no theorem below depends on that case.) -/
def Mat3.inverted (a : Mat3) : Mat3 where
  m00 := (a.m11 * a.m22 - a.m12 * a.m21) / a.det
  m01 := (a.m02 * a.m21 - a.m01 * a.m22) / a.det
  m02 := (a.m01 * a.m12 - a.m02 * a.m11) / a.det
  m10 := (a.m12 * a.m20 - a.m10 * a.m22) / a.det
  m11 := (a.m00 * a.m22 - a.m02 * a.m20) / a.det
  m12 := (a.m02 * a.m10 - a.m00 * a.m12) / a.det
  m20 := (a.m10 * a.m21 - a.m11 * a.m20) / a.det
  m21 := (a.m01 * a.m20 - a.m00 * a.m21) / a.det
  m22 := (a.m00 * a.m11 - a.m01 * a.m10) / a.det

/-- Negate every entry. -/
def Mat3.neg (a : Mat3) : Mat3 :=
  ⟨-a.m00, -a.m01, -a.m02, -a.m10, -a.m11, -a.m12, -a.m20, -a.m21, -a.m22⟩

/-- Column 0 of the Python-view matrix.  mathutils stores the Python view
column-major: Python `M[r][c]` is C `mat[c][r]`, so this column is the C
storage vector `mat[0]`. -/
def Mat3.col0 (a : Mat3) : Vec3 := ⟨a.m00, a.m10, a.m20⟩

/-- Column 1 of the Python-view matrix (C storage vector `mat[1]`). -/
def Mat3.col1 (a : Mat3) : Vec3 := ⟨a.m01, a.m11, a.m21⟩

/-- Column 2 of the Python-view matrix (C storage vector `mat[2]`). -/
def Mat3.col2 (a : Mat3) : Vec3 := ⟨a.m02, a.m12, a.m22⟩

/-- Rebuild a matrix from its three Python-view columns. -/
def Mat3.ofCols (c0 c1 c2 : Vec3) : Mat3 :=
  ⟨c0.x, c1.x, c2.x, c0.y, c1.y, c2.y, c0.z, c1.z, c2.z⟩

/-- Blender's `normalize_m3_m3` (the preamble of `mat3_to_quat`) normalises
the three C storage vectors `mat[0..2]`, i.e. the COLUMNS of the
Python-view matrix. -/
def Mat3.normalizedCols (a : Mat3) : Mat3 :=
  Mat3.ofCols a.col0.normalized a.col1.normalized a.col2.normalized

/-- A quaternion `(w, x, y, z)` with rational components, the component order
of `mathutils.Quaternion`. -/
structure Quat where
  w : ℚ
  x : ℚ
  y : ℚ
  z : ℚ
deriving DecidableEq, Repr

/-- Blender's `mat3_normalized_to_quat_fast` (Mike Day's branch method) on
the column-normalised, nonnegative-determinant matrix.  mathutils hands its
buffer straight to the C code, and that buffer is column-major relative to
the Python view, so every C read `mat[i][j]` is the Python-view entry
`M[j][i]` — here `m.mji`.  Division by a zero `s` yields `0` components in
this rational model (float code would produce non-finite values; no theorem
below evaluates that case). -/
def mat3ToQuatFast (m : Mat3) : Quat :=
  if m.m22 < 0 then
    if m.m00 > m.m11 then
      let t := 1 + m.m00 - m.m11 - m.m22
      let s := if m.m21 < m.m12 then -(2 * ratSqrt t) else 2 * ratSqrt t
      let qw := (m.m21 - m.m12) * (1 / s)
      let qy := (m.m10 + m.m01) * (1 / s)
      let qz := (m.m02 + m.m20) * (1 / s)
      if t = 1 ∧ qw = 0 ∧ qy = 0 ∧ qz = 0 then ⟨qw, 1, qy, qz⟩
      else ⟨qw, s / 4, qy, qz⟩
    else
      let t := 1 - m.m00 + m.m11 - m.m22
      let s := if m.m02 < m.m20 then -(2 * ratSqrt t) else 2 * ratSqrt t
      let qw := (m.m02 - m.m20) * (1 / s)
      let qx := (m.m10 + m.m01) * (1 / s)
      let qz := (m.m21 + m.m12) * (1 / s)
      if t = 1 ∧ qw = 0 ∧ qx = 0 ∧ qz = 0 then ⟨qw, qx, 1, qz⟩
      else ⟨qw, qx, s / 4, qz⟩
  else
    if m.m00 < -m.m11 then
      let t := 1 - m.m00 - m.m11 + m.m22
      let s := if m.m10 < m.m01 then -(2 * ratSqrt t) else 2 * ratSqrt t
      let qw := (m.m10 - m.m01) * (1 / s)
      let qx := (m.m02 + m.m20) * (1 / s)
      let qy := (m.m21 + m.m12) * (1 / s)
      if t = 1 ∧ qw = 0 ∧ qx = 0 ∧ qy = 0 then ⟨qw, qx, qy, 1⟩
      else ⟨qw, qx, qy, s / 4⟩
    else
      let t := 1 + m.m00 + m.m11 + m.m22
      let s := 2 * ratSqrt t
      let qx := (m.m21 - m.m12) * (1 / s)
      let qy := (m.m02 - m.m20) * (1 / s)
      let qz := (m.m10 - m.m01) * (1 / s)
      if t = 1 ∧ qx = 0 ∧ qy = 0 ∧ qz = 0 then ⟨1, qx, qy, qz⟩
      else ⟨s / 4, qx, qy, qz⟩

/-- Blender's `mat3_to_quat` as called by `Matrix.to_quaternion`: normalise
the three stored vectors (the Python-view columns), negate if the
determinant is negative (the determinant of the Python view equals that of
its transpose, so the C test reads the same either way), then the fast
conversion with column-major reads. -/
def mat3ToQuat (m : Mat3) : Quat :=
  let u := m.normalizedCols
  mat3ToQuatFast (if u.det < 0 then u.neg else u)

/-- One face corner (loop): its `vertex_index` and the split normal and
tangent that `calc_tangents` attaches to it. -/
structure Corner where
  vertex_index : ℕ
  normal : Vec3
  tangent : Vec3
deriving DecidableEq, Repr

/-- Placeholder corner used for out-of-range list reads; every theorem below
constrains indices so that it is never the value actually read. -/
def defaultCorner : Corner := ⟨0, ⟨0, 0, 0⟩, ⟨0, 0, 0⟩⟩

/-- One per-frame mesh snapshot: vertex positions (indexed by `v.index`) and
per-corner data (indexed by loop position). -/
structure MeshData where
  vertices : List Vec3
  loops : List Corner
deriving DecidableEq, Repr

/-- The orthonormal frame matrix `Matrix((N, T, B))` built in
`get_vertex_data` lines 229-238: `N`, `T` normalised, and
`B = N.cross(T).normalized()`. -/
def frameMatrix (l : Corner) : Mat3 :=
  let N := l.normal.normalized
  let T := l.tangent.normalized
  let B := (N.cross T).normalized
  Mat3.ofRows N T B

/-- Lines 228-241 of `get_vertex_data` (the live `if 1:` branch): the
relative rotation `rot = M.inverted() @ M0` of one snapshot corner `l`
versus its reference corner `l0`, converted to a quaternion. -/
def cornerQuat (l0 l : Corner) : Quat :=
  mat3ToQuat ((frameMatrix l).inverted.mul (frameMatrix l0))

/-- One RGBA pixel with exact rational channels. -/
structure Pix where
  r : ℚ
  g : ℚ
  b : ℚ
  a : ℚ
deriving DecidableEq, Repr

/-- The all-zero pixel (`np.zeros` initialisation). -/
def zeroPix : Pix := ⟨0, 0, 0, 0⟩

/-- `(*offset, 1)` of line 220. -/
def offsetPix (d : Vec3) : Pix := ⟨d.x, d.y, d.z, 1⟩

/-- `(quat.x, quat.y, quat.z, quat.w)` of line 251. -/
def quatPix (q : Quat) : Pix := ⟨q.x, q.y, q.z, q.w⟩

/-- `(n // 2048) - 2048`, the most-significant-half channel of the header
encoding (lines 204, 206). -/
def MSH (n : ℤ) : ℤ := n / 2048 - 2048

/-- `(n % 2048) - 2048`, the least-significant-half channel of the header
encoding (lines 205, 207). -/
def LSH (n : ℤ) : ℤ := n % 2048 - 2048

/-- The header pixel written at slot 0 of both buffers (lines 209-210):
`(vertex_count_MSH, vertex_count_LSH, frame_count_LSH, 1)`. -/
def headerPixel (vertex_count frame_count : ℕ) : Pix :=
  ⟨(MSH vertex_count : ℚ), (LSH vertex_count : ℚ), (LSH frame_count : ℚ), 1⟩

/-- The spec's decode rule `n = (MSH + 2048)*2048 + (LSH + 2048)`. -/
def decodeMSHLSH (msh lsh : ℤ) : ℤ := (msh + 2048) * 2048 + (lsh + 2048)

/-- Lines 218-220: write, for each vertex of the current frame (walked with
its running index `k`), the pixel `(*(v.co - original[v.index].co), 1)` at
buffer slot `start_of_frame + v.index`. -/
def writeOffsets (original : List Vec3) (start : ℕ) :
    List Vec3 → ℕ → List Pix → List Pix
  | [], _, buf => buf
  | p :: rest, k, buf =>
      writeOffsets original start rest (k + 1)
        (buf.set (start + k) (offsetPix (p.sub (original.getD k ⟨0, 0, 0⟩))))

/-- Lines 224-251: write, for each loop `l` of the current frame (walked with
its running index `k`, so that `l0 = originalL[l.index]`), the pixel
`(quat.x, quat.y, quat.z, quat.w)` at buffer slot
`start_of_frame + l.vertex_index`. -/
def writeQuats (originalL : List Corner) (start : ℕ) :
    List Corner → ℕ → List Pix → List Pix
  | [], _, buf => buf
  | l :: rest, k, buf =>
      writeQuats originalL start rest (k + 1)
        (buf.set (start + l.vertex_index)
          (quatPix (cornerQuat (originalL.getD k defaultCorner) l)))

/-- The `for me in meshes` loop of lines 215-253: process one frame after the
other, advancing `start_of_frame` by `len(me.vertices)` each time. -/
def framesLoop (original : List Vec3) (originalL : List Corner) :
    List MeshData → ℕ → List Pix × List Pix → List Pix × List Pix
  | [], _, bufs => bufs
  | me :: rest, start, (offs, norms) =>
      framesLoop original originalL rest (start + me.vertices.length)
        (writeOffsets original start me.vertices 0 offs,
         writeQuats originalL start me.loops 0 norms)

/-- `get_vertex_data` (lines 193-267) at pixel granularity: allocate
`len(original)*len(meshes)+1` zero pixels per buffer, write the header pixel
at slot 0, then run the frame loop starting at slot 1.  The Python function
returns the flattened float arrays; a slot here is one 4-float group of that
flat array.  (`meshes[0]` on an empty mesh list raises in Python; the model
returns empty buffers, a case every theorem below excludes.) -/
def get_vertex_data (meshes : List MeshData) (vertex_count frame_count : ℕ) :
    List Pix × List Pix :=
  match meshes with
  | [] => ([], [])
  | m0 :: _ =>
      let n := m0.vertices.length * meshes.length + 1
      let offs := (List.replicate n zeroPix).set 0 (headerPixel vertex_count frame_count)
      let norms := (List.replicate n zeroPix).set 0 (headerPixel vertex_count frame_count)
      framesLoop m0.vertices m0.loops meshes 1 (offs, norms)

/-- `DecodeMorton2X` (lines 296-302): extract the even-position bits of a
linear index.  Python `&`, `|`, `>>` on nonnegative ints are `Nat` bitwise
operations. -/
def DecodeMorton2X (code : ℕ) : ℕ :=
  let c1 := code &&& 0x55555555
  let c2 := (c1 ||| (c1 >>> 1)) &&& 0x33333333
  let c3 := (c2 ||| (c2 >>> 2)) &&& 0x0F0F0F0F
  let c4 := (c3 ||| (c3 >>> 4)) &&& 0x00FF00FF
  (c4 ||| (c4 >>> 8)) &&& 0x0000FFFF

/-- `DecodeMorton2Y` (lines 304-310): extract the odd-position bits. -/
def DecodeMorton2Y (code : ℕ) : ℕ :=
  let c1 := (code >>> 1) &&& 0x55555555
  let c2 := (c1 ||| (c1 >>> 1)) &&& 0x33333333
  let c3 := (c2 ||| (c2 >>> 2)) &&& 0x0F0F0F0F
  let c4 := (c3 ||| (c3 >>> 4)) &&& 0x00FF00FF
  (c4 ||| (c4 >>> 8)) &&& 0x0000FFFF

/-- Fuel-driven worker for `evenBitsVal` (the fuel only forces termination;
`evenBitsAux fuel c` is fuel-independent once `c ≤ fuel`). -/
def evenBitsAux : ℕ → ℕ → ℕ
  | 0, _ => 0
  | fuel + 1, c => if c = 0 then 0 else c % 2 + 2 * evenBitsAux fuel (c / 4)

/-- Specification value for claim C7: the integer formed by the even-position
bits of `c` (bit `2*i` of `c` becomes bit `i`). -/
def evenBitsVal (c : ℕ) : ℕ := evenBitsAux c c

/-- Specification value for claim C7: the integer formed by the odd-position
bits of `c`. -/
def oddBitsVal (c : ℕ) : ℕ := evenBitsVal (c / 2)

/-- The named capacity failures of the spec (section 4.1). -/
inductive EncodeError where
  | VertexLimitExceeded
  | FrameLimitExceeded
  | PixelBudgetExceeded
deriving DecidableEq, Repr

/-- The three capacity checks of `execute` (lines 452-472), in source order:
vertex limit, frame limit, pixel budget. -/
def validate (vertex_count frame_count : ℕ) : Option EncodeError :=
  if vertex_count > 4096 * 4095 then some .VertexLimitExceeded
  else if frame_count > 4096 then some .FrameLimitExceeded
  else if frame_count * vertex_count + 1 > 8192 * 8192 then some .PixelBudgetExceeded
  else none

/-- `max(DecodeMorton2X(idx) for idx in range(N))` with `0` for an empty
range (Python raises there; the pipeline always has `N ≥ 1`). -/
def mortonMaxX (N : ℕ) : ℕ := ((List.range N).map DecodeMorton2X).foldl max 0

/-- `max(DecodeMorton2Y(idx) for idx in range(N))` likewise. -/
def mortonMaxY (N : ℕ) : ℕ := ((List.range N).map DecodeMorton2Y).foldl max 0

/-- `int(math.ceil(max_x/32)*32)` for `max_x = mortonMaxX N + 1`
(lines 491-494), as exact integer ceiling division. -/
def mortonWidth (N : ℕ) : ℕ := (mortonMaxX N + 1 + 31) / 32 * 32

/-- The matching height computation (lines 492-495). -/
def mortonHeight (N : ℕ) : ℕ := (mortonMaxY N + 1 + 31) / 32 * 32

/-- Pointwise update of a pixel grid viewed as a function of `(x, y)`:
`g[y, x] = p` of line 503. -/
def gridUpdate (g : ℕ → ℕ → Pix) (x y : ℕ) (p : Pix) : ℕ → ℕ → Pix :=
  fun a b => if a = x ∧ b = y then p else g a b

/-- The scatter loop `for idx in range(num_elements)` (lines 500-504),
processing indices `i, i+1, ..., i+n-1`. -/
def scatterFrom (buf : List Pix) : ℕ → ℕ → (ℕ → ℕ → Pix) → (ℕ → ℕ → Pix)
  | _, 0, g => g
  | i, n + 1, g =>
      scatterFrom buf (i + 1) n
        (gridUpdate g (DecodeMorton2X i) (DecodeMorton2Y i) (buf.getD i zeroPix))

/-- The fully scattered Z-curve grid for the first `N` pixels of `buf`,
starting from the all-zero grid (`np.zeros`, lines 497-498). -/
def mortonScatter (N : ℕ) (buf : List Pix) : ℕ → ℕ → Pix :=
  scatterFrom buf 0 N (fun _ _ => zeroPix)

/-- A final packed texture: dimensions plus row-major pixels. -/
structure Grid where
  width : ℕ
  height : ℕ
  pix : List Pix

/-- Read grid cell `(x, y)` from the row-major pixel list. -/
def gridCell (g : Grid) (x y : ℕ) : Pix := g.pix.getD (y * g.width + x) zeroPix

/-- The Z-curve branch of `execute` (lines 487-511): scatter `N` pixels into
a zero grid and flatten it row-major at the rounded-up dimensions. -/
def mortonLayout (N : ℕ) (buf : List Pix) : Grid where
  width := mortonWidth N
  height := mortonHeight N
  pix :=
    (List.range (mortonHeight N)).flatMap fun y =>
      (List.range (mortonWidth N)).map fun x => mortonScatter N buf x y

/-- The linear branch of `execute` (lines 513-519): drop the header pixel and
declare dimensions `vertex_count × frame_count`. -/
def linearLayout (vertex_count frame_count : ℕ) (buf : List Pix) : Grid where
  width := vertex_count
  height := frame_count
  pix := buf.drop 1

/-- The encode pipeline of `OBJECT_OT_ProcessAnimMeshes.execute`
(lines 428-537), restricted to its algorithmic core: run the capacity
checks (each `return {'CANCELLED'}` becomes the corresponding error, and no
buffer is built), then build the two linear buffers with `get_vertex_data`
and pack them with the selected layout. -/
def executeEncode (meshes : List MeshData) (vertex_count frame_count : ℕ)
    (zcurve : Bool) : Except EncodeError (Grid × Grid) :=
  match validate vertex_count frame_count with
  | some e => .error e
  | none =>
      let bufs := get_vertex_data meshes vertex_count frame_count
      let N := bufs.1.length
      if zcurve then
        .ok (mortonLayout N bufs.1, mortonLayout N bufs.2)
      else
        .ok (linearLayout vertex_count frame_count bufs.1,
             linearLayout vertex_count frame_count bufs.2)

/-- The worked example of spec section 8: three vertices, two frames,
reference positions `[(0,0,0), (1,0,0), (0,1,0)]`. -/
def exMesh0 : MeshData := ⟨[⟨0, 0, 0⟩, ⟨1, 0, 0⟩, ⟨0, 1, 0⟩], []⟩

/-- Frame-1 positions `[(0,0,1), (1,0,1), (0,1,1)]` of the same example. -/
def exMesh1 : MeshData := ⟨[⟨0, 0, 1⟩, ⟨1, 0, 1⟩, ⟨0, 1, 1⟩], []⟩

/-- The two-frame example mesh sequence. -/
def exMeshes : List MeshData := [exMesh0, exMesh1]

/-- A reference corner with the orthonormal frame `N = (0,0,1)`,
`T = (1,0,0)` (so `B = (0,1,0)`). -/
def exCorner0 : Corner := ⟨0, ⟨0, 0, 1⟩, ⟨1, 0, 0⟩⟩

/-- A snapshot corner with the same normal `(0,0,1)` but the rotated unit
tangent `(7/25, 24/25, 0)` — a rotation about the shared normal. -/
def exCorner1 : Corner := ⟨0, ⟨0, 0, 1⟩, ⟨7/25, 24/25, 0⟩⟩

/-- One-vertex, one-corner, two-frame input whose second frame only rotates
the corner tangent about the unchanged normal. -/
def exRotMeshes : List MeshData :=
  [⟨[⟨0, 0, 0⟩], [exCorner0]⟩, ⟨[⟨0, 0, 0⟩], [exCorner1]⟩]

/-! ## Morton decoder: per-bit characterisation -/

/-- `testBit` as a division/parity test, in rewritable form. -/
theorem testBit_div_mod (n i : ℕ) : n.testBit i = decide (n / 2 ^ i % 2 = 1) :=
  Nat.testBit_to_div_mod

/-- Bit `j` of `DecodeMorton2X c` is bit `2*j` of `c` for `j < 16`, and `0`
above. -/
theorem DecodeMorton2X_testBit (c j : ℕ) :
    (DecodeMorton2X c).testBit j = (decide (j < 16) && c.testBit (2 * j)) := by
  rcases lt_or_ge j 16 with hj | hj
  · interval_cases j <;>
    · simp only [DecodeMorton2X, Nat.testBit_land, Nat.testBit_lor, Nat.testBit_shiftRight]
      norm_num [testBit_div_mod]
  · have h16 : (65535 : ℕ) < 2 ^ j :=
      lt_of_lt_of_le (by norm_num : (65535 : ℕ) < 2 ^ 16)
        (Nat.pow_le_pow_right (by norm_num) hj)
    have hd : (decide (j < 16)) = false := by simp [Nat.not_lt.mpr hj]
    simp only [DecodeMorton2X, Nat.testBit_land, Nat.testBit_eq_false_of_lt h16,
      Bool.and_false, hd, Bool.false_and]

/-- The `Y` decoder is the `X` decoder applied to the right-shifted code. -/
theorem DecodeMorton2Y_eq (c : ℕ) : DecodeMorton2Y c = DecodeMorton2X (c >>> 1) := rfl

/-- Bit `j` of `DecodeMorton2Y c` is bit `2*j + 1` of `c` for `j < 16`. -/
theorem DecodeMorton2Y_testBit (c j : ℕ) :
    (DecodeMorton2Y c).testBit j = (decide (j < 16) && c.testBit (2 * j + 1)) := by
  rw [DecodeMorton2Y_eq, DecodeMorton2X_testBit, Nat.testBit_shiftRight, Nat.add_comm]

/-- `evenBitsAux` is bitwise even-bit extraction whenever the fuel suffices. -/
theorem evenBitsAux_testBit :
    ∀ fuel c j : ℕ, c ≤ fuel → (evenBitsAux fuel c).testBit j = c.testBit (2 * j)
  | 0, c, j, h => by
      have : c = 0 := Nat.le_zero.mp h
      subst this
      simp [evenBitsAux]
  | fuel + 1, c, j, h => by
      by_cases hc : c = 0
      · subst hc; simp [evenBitsAux]
      · have hstep : evenBitsAux (fuel + 1) c = c % 2 + 2 * evenBitsAux fuel (c / 4) := by
          simp [evenBitsAux, hc]
        rw [hstep]
        cases j with
        | zero =>
            rw [Nat.mul_zero, Nat.testBit_zero, Nat.testBit_zero]
            have : (c % 2 + 2 * evenBitsAux fuel (c / 4)) % 2 = c % 2 := by omega
            rw [this]
        | succ j =>
            rw [Nat.testBit_succ]
            have hdiv : (c % 2 + 2 * evenBitsAux fuel (c / 4)) / 2 = evenBitsAux fuel (c / 4) := by
              omega
            rw [hdiv, evenBitsAux_testBit fuel (c / 4) j (by omega)]
            have h2 : (2 : ℕ) * (j + 1) = (2 * j + 1) + 1 := by ring
            rw [h2, Nat.testBit_succ, Nat.testBit_succ, Nat.div_div_eq_div_mul]

/-- Bit `j` of `evenBitsVal c` is bit `2*j` of `c`. -/
theorem evenBitsVal_testBit (c j : ℕ) : (evenBitsVal c).testBit j = c.testBit (2 * j) :=
  evenBitsAux_testBit c c j le_rfl

/-- Bit `j` of `oddBitsVal c` is bit `2*j + 1` of `c`. -/
theorem oddBitsVal_testBit (c j : ℕ) : (oddBitsVal c).testBit j = c.testBit (2 * j + 1) := by
  rw [oddBitsVal, evenBitsVal_testBit]
  have : c / 2 = c >>> 1 := (Nat.shiftRight_one c).symm
  rw [this, Nat.testBit_shiftRight, Nat.add_comm]

/-- On 32-bit codes the `X` decoder is exactly even-bit extraction. -/
theorem DecodeMorton2X_eq_evenBitsVal {c : ℕ} (h : c < 2 ^ 32) :
    DecodeMorton2X c = evenBitsVal c := by
  apply Nat.eq_of_testBit_eq
  intro j
  rw [DecodeMorton2X_testBit, evenBitsVal_testBit]
  rcases lt_or_ge j 16 with hj | hj
  · simp [hj]
  · have h32 : c < 2 ^ (2 * j) :=
      lt_of_lt_of_le h (Nat.pow_le_pow_right (by norm_num) (by omega))
    simp [Nat.testBit_eq_false_of_lt h32]

/-- On 32-bit codes the `Y` decoder is exactly odd-bit extraction. -/
theorem DecodeMorton2Y_eq_oddBitsVal {c : ℕ} (h : c < 2 ^ 32) :
    DecodeMorton2Y c = oddBitsVal c := by
  apply Nat.eq_of_testBit_eq
  intro j
  rw [DecodeMorton2Y_testBit, oddBitsVal_testBit]
  rcases lt_or_ge j 16 with hj | hj
  · simp [hj]
  · have h32 : c < 2 ^ (2 * j + 1) :=
      lt_of_lt_of_le h (Nat.pow_le_pow_right (by norm_num) (by omega))
    simp [Nat.testBit_eq_false_of_lt h32]

/-- Two 32-bit codes with the same decoded `x` and `y` are equal: the Morton
decode pair is injective on `[0, 2^32)`. -/
theorem morton_decode_inj {a b : ℕ} (ha : a < 2 ^ 32) (hb : b < 2 ^ 32)
    (hx : DecodeMorton2X a = DecodeMorton2X b)
    (hy : DecodeMorton2Y a = DecodeMorton2Y b) : a = b := by
  apply Nat.eq_of_testBit_eq
  intro i
  rcases Nat.even_or_odd i with ⟨j, hj⟩ | ⟨j, hj⟩
  · have hi : i = 2 * j := by omega
    subst hi
    rcases lt_or_ge j 16 with hjlt | hjge
    · have := congrArg (fun n => n.testBit j) hx
      simpa [DecodeMorton2X_testBit, hjlt] using this
    · have h2a : a < 2 ^ (2 * j) :=
        lt_of_lt_of_le ha (Nat.pow_le_pow_right (by norm_num) (by omega))
      have h2b : b < 2 ^ (2 * j) :=
        lt_of_lt_of_le hb (Nat.pow_le_pow_right (by norm_num) (by omega))
      rw [Nat.testBit_eq_false_of_lt h2a, Nat.testBit_eq_false_of_lt h2b]
  · have hi : i = 2 * j + 1 := by omega
    subst hi
    rcases lt_or_ge j 16 with hjlt | hjge
    · have := congrArg (fun n => n.testBit j) hy
      simpa [DecodeMorton2Y_testBit, hjlt] using this
    · have h2a : a < 2 ^ (2 * j + 1) :=
        lt_of_lt_of_le ha (Nat.pow_le_pow_right (by norm_num) (by omega))
      have h2b : b < 2 ^ (2 * j + 1) :=
        lt_of_lt_of_le hb (Nat.pow_le_pow_right (by norm_num) (by omega))
      rw [Nat.testBit_eq_false_of_lt h2a, Nat.testBit_eq_false_of_lt h2b]

/-- A number whose bits at positions `≥ k` are all clear is below `2^k`. -/
theorem lt_two_pow_of_high_bits_false {n k : ℕ}
    (h : ∀ i, k ≤ i → n.testBit i = false) : n < 2 ^ k := by
  have heq : n = n % 2 ^ k := by
    apply Nat.eq_of_testBit_eq
    intro i
    rw [Nat.testBit_mod_two_pow]
    rcases lt_or_ge i k with hik | hik
    · simp [hik]
    · simp [h i hik, Nat.not_lt.mpr hik]
  rw [heq]
  exact Nat.mod_lt _ (Nat.pos_pow_of_pos k (by norm_num))

/-- The `X` decoder never exceeds 16 bits. -/
theorem DecodeMorton2X_le (c : ℕ) : DecodeMorton2X c ≤ 0xFFFF := Nat.and_le_right

/-- The `Y` decoder never exceeds 16 bits. -/
theorem DecodeMorton2Y_le (c : ℕ) : DecodeMorton2Y c ≤ 0xFFFF := Nat.and_le_right

/-- Codes below `4^k` decode to an `X` below `2^k`. -/
theorem DecodeMorton2X_lt {c k : ℕ} (h : c < 2 ^ (2 * k)) :
    DecodeMorton2X c < 2 ^ k := by
  apply lt_two_pow_of_high_bits_false
  intro i hi
  rw [DecodeMorton2X_testBit]
  rcases lt_or_ge i 16 with hi16 | hi16
  · have : c < 2 ^ (2 * i) :=
      lt_of_lt_of_le h (Nat.pow_le_pow_right (by norm_num) (by omega))
    simp [Nat.testBit_eq_false_of_lt this]
  · simp [Nat.not_lt.mpr hi16]

/-- Codes below `2^(2k+1)` decode to a `Y` below `2^k`. -/
theorem DecodeMorton2Y_lt {c k : ℕ} (h : c < 2 ^ (2 * k + 1)) :
    DecodeMorton2Y c < 2 ^ k := by
  apply lt_two_pow_of_high_bits_false
  intro i hi
  rw [DecodeMorton2Y_testBit]
  rcases lt_or_ge i 16 with hi16 | hi16
  · have : c < 2 ^ (2 * i + 1) :=
      lt_of_lt_of_le h (Nat.pow_le_pow_right (by norm_num) (by omega))
    simp [Nat.testBit_eq_false_of_lt this]
  · simp [Nat.not_lt.mpr hi16]

/-! ## Fold/max and scatter helper lemmas -/

/-- Every member of a list is below or at the running `foldl max`. -/
theorem le_foldl_max (l : List ℕ) (b a : ℕ) (ha : a ∈ l) : a ≤ l.foldl max b := by
  induction l generalizing b with
  | nil => cases ha
  | cons hd tl ih =>
      rcases List.mem_cons.mp ha with rfl | hmem
      · calc a ≤ max b a := le_max_right _ _
          _ ≤ List.foldl max (max b a) tl := by
              clear ih ha
              induction tl generalizing b a with
              | nil => exact le_rfl
              | cons h2 t2 ih2 => exact le_trans (le_max_left _ _) (ih2 _ _)
      · exact ih _ hmem

/-- `foldl max` stays below any bound dominating the seed and the members. -/
theorem foldl_max_le (l : List ℕ) (b B : ℕ) (hb : b ≤ B) (h : ∀ a ∈ l, a ≤ B) :
    l.foldl max b ≤ B := by
  induction l generalizing b with
  | nil => exact hb
  | cons hd tl ih =>
      exact ih _ (max_le hb (h hd (List.mem_cons_self hd tl)))
        (fun a ha => h a (List.mem_cons_of_mem hd ha))

/-- Every decoded `x` of an index below `N` is bounded by `mortonMaxX N`. -/
theorem DecodeMorton2X_le_mortonMaxX {N i : ℕ} (h : i < N) :
    DecodeMorton2X i ≤ mortonMaxX N :=
  le_foldl_max _ _ _ (List.mem_map_of_mem _ (List.mem_range.mpr h))

/-- Every decoded `y` of an index below `N` is bounded by `mortonMaxY N`. -/
theorem DecodeMorton2Y_le_mortonMaxY {N i : ℕ} (h : i < N) :
    DecodeMorton2Y i ≤ mortonMaxY N :=
  le_foldl_max _ _ _ (List.mem_map_of_mem _ (List.mem_range.mpr h))

/-- The rounded-up width strictly dominates every observed `x`. -/
theorem mortonMaxX_lt_mortonWidth (N : ℕ) : mortonMaxX N < mortonWidth N := by
  unfold mortonWidth
  omega

/-- The rounded-up height strictly dominates every observed `y`. -/
theorem mortonMaxY_lt_mortonHeight (N : ℕ) : mortonMaxY N < mortonHeight N := by
  unfold mortonHeight
  omega

/-- A scatter run over `[i, i+n)` leaves a cell hit by none of its indices
unchanged. -/
theorem scatterFrom_not_hit (buf : List Pix) :
    ∀ (n i : ℕ) (g : ℕ → ℕ → Pix) (x y : ℕ),
      (∀ j, i ≤ j → j < i + n → ¬(DecodeMorton2X j = x ∧ DecodeMorton2Y j = y)) →
      scatterFrom buf i n g x y = g x y
  | 0, i, g, x, y, _ => rfl
  | n + 1, i, g, x, y, h => by
      rw [scatterFrom, scatterFrom_not_hit buf n (i + 1) _ x y
        (fun j hj1 hj2 => h j (by omega) (by omega))]
      have hne : ¬(x = DecodeMorton2X i ∧ y = DecodeMorton2Y i) := by
        intro ⟨h1, h2⟩
        exact h i le_rfl (by omega) ⟨h1.symm, h2.symm⟩
      simp [gridUpdate, hne]

/-- A scatter run over `[i, i+n)` stores `buf[j]` at the cell of index `j`
provided no later index of the run collides with it. -/
theorem scatterFrom_hit (buf : List Pix) :
    ∀ (n i : ℕ) (g : ℕ → ℕ → Pix) (j : ℕ), i ≤ j → j < i + n →
      (∀ j2, j < j2 → j2 < i + n →
        ¬(DecodeMorton2X j2 = DecodeMorton2X j ∧ DecodeMorton2Y j2 = DecodeMorton2Y j)) →
      scatterFrom buf i n g (DecodeMorton2X j) (DecodeMorton2Y j) = buf.getD j zeroPix
  | 0, i, g, j, h1, h2, _ => by omega
  | n + 1, i, g, j, h1, h2, h3 => by
      rcases Nat.eq_or_lt_of_le h1 with heq | hlt
      · subst heq
        rw [scatterFrom, scatterFrom_not_hit buf n (i + 1) _ _ _
          (fun j2 hj1 hj2 => h3 j2 (by omega) (by omega))]
        simp [gridUpdate]
      · rw [scatterFrom]
        exact scatterFrom_hit buf n (i + 1) _ j hlt (by omega)
          (fun j2 ha hb => h3 j2 ha (by omega))

/-! ## Claims C7, C8, C10: Morton decoding and Z-curve layout -/

/-- C7, counterexample: the claim quantifies over every nonnegative integer
code, but the five 32-bit masks discard bits `≥ 32`: at `code = 2^32`
(whose only set bit is at even position 32, so the even-position-bits value
is `2^16`) `DecodeMorton2X` returns `0`. -/
theorem c7_counterexample :
    DecodeMorton2X 4294967296 = 0 ∧ evenBitsVal 4294967296 = 65536 ∧
    DecodeMorton2X 4294967296 ≠ evenBitsVal 4294967296 := by
  refine ⟨by decide, by decide, by decide⟩

/-- C7 (amended): for every code below `2^32`, `DecodeMorton2X` returns the
integer formed by the even-position bits and `DecodeMorton2Y` the integer
formed by the odd-position bits; in particular the decode of `0, 1, 2, 3`
is `(0,0), (1,0), (0,1), (1,1)`. -/
theorem c7_morton_decode_bits :
    (∀ code : ℕ, code < 2 ^ 32 →
      DecodeMorton2X code = evenBitsVal code ∧ DecodeMorton2Y code = oddBitsVal code) ∧
    (DecodeMorton2X 0 = 0 ∧ DecodeMorton2Y 0 = 0) ∧
    (DecodeMorton2X 1 = 1 ∧ DecodeMorton2Y 1 = 0) ∧
    (DecodeMorton2X 2 = 0 ∧ DecodeMorton2Y 2 = 1) ∧
    (DecodeMorton2X 3 = 1 ∧ DecodeMorton2Y 3 = 1) := by
  refine ⟨fun code h => ⟨DecodeMorton2X_eq_evenBitsVal h, DecodeMorton2Y_eq_oddBitsVal h⟩,
    ⟨by decide, by decide⟩, ⟨by decide, by decide⟩, ⟨by decide, by decide⟩,
    ⟨by decide, by decide⟩⟩

/-- C7, witness: the amended theorem applied at the concrete code 6
(binary 110: even bits 0b10 = 2, odd bits 0b1 = 1). -/
theorem c7_morton_decode_bits_witness :
    DecodeMorton2X 6 = evenBitsVal 6 ∧ DecodeMorton2Y 6 = oddBitsVal 6 :=
  c7_morton_decode_bits.1 6 (by norm_num)

/-- C8: in Z-curve mode (so with the pixel budget `N = vc*fc+1 ≤ 8192²`
validated), distinct flat indices below `N` decode to distinct `(x,y)`
cells, every decoded cell lies inside the final
`ceil((max+1)/32)*32`-rounded grid bounds, and every cell no index decodes
to still holds the zero pixel after the scatter loop. -/
theorem c8_zcurve_scatter (vertex_count frame_count N : ℕ) (buf : List Pix)
    (hN : N = vertex_count * frame_count + 1) (hbudget : N ≤ 8192 * 8192) :
    (∀ i j, i < N → j < N → i ≠ j →
      (DecodeMorton2X i, DecodeMorton2Y i) ≠ (DecodeMorton2X j, DecodeMorton2Y j)) ∧
    (∀ i, i < N →
      DecodeMorton2X i < mortonWidth N ∧ DecodeMorton2Y i < mortonHeight N) ∧
    (∀ x y, (∀ i, i < N → ¬(DecodeMorton2X i = x ∧ DecodeMorton2Y i = y)) →
      mortonScatter N buf x y = zeroPix) := by
  refine ⟨?_, ?_, ?_⟩
  · intro i j hi hj hne hpair
    rw [Prod.mk.injEq] at hpair
    have h32 : (2 : ℕ) ^ 32 = 4294967296 := by norm_num
    exact hne (morton_decode_inj (by omega) (by omega) hpair.1 hpair.2)
  · intro i hi
    exact ⟨lt_of_le_of_lt (DecodeMorton2X_le_mortonMaxX hi) (mortonMaxX_lt_mortonWidth N),
      lt_of_le_of_lt (DecodeMorton2Y_le_mortonMaxY hi) (mortonMaxY_lt_mortonHeight N)⟩
  · intro x y h
    exact scatterFrom_not_hit buf N 0 _ x y (fun j _ hj => h j (by omega))

/-- C8, witness: the theorem at `vc = fc = 1` (`N = 2`): indices 0 and 1 land
on distinct cells, and the never-addressed cell `(5, 5)` stays zero. -/
theorem c8_zcurve_scatter_witness :
    (DecodeMorton2X 0, DecodeMorton2Y 0) ≠ (DecodeMorton2X 1, DecodeMorton2Y 1) ∧
    mortonScatter 2 [] 5 5 = zeroPix :=
  ⟨(c8_zcurve_scatter 1 1 2 [] rfl (by norm_num)).1 0 1 (by norm_num) (by norm_num)
      (by norm_num),
   (c8_zcurve_scatter 1 1 2 [] rfl (by norm_num)).2.2 5 5 (by decide)⟩

/-- C10 (implicit safety): both Morton decoders return at most `0xFFFF` on
any input; for every flat index below the element count the decoded cell is
strictly inside the computed width/height, so every scatter write is
in-bounds; and under the validated pixel budget (`N ≤ 8192²`) the final
dimensions never exceed the 8k texture limit. -/
theorem c10_zcurve_bounds :
    (∀ code : ℕ, DecodeMorton2X code ≤ 0xFFFF ∧ DecodeMorton2Y code ≤ 0xFFFF) ∧
    (∀ N idx : ℕ, idx < N →
      DecodeMorton2X idx < mortonWidth N ∧ DecodeMorton2Y idx < mortonHeight N) ∧
    (∀ N : ℕ, N ≤ 8192 * 8192 → mortonWidth N ≤ 8192 ∧ mortonHeight N ≤ 8192) := by
  refine ⟨fun code => ⟨DecodeMorton2X_le code, DecodeMorton2Y_le code⟩, ?_, ?_⟩
  · intro N idx h
    exact ⟨lt_of_le_of_lt (DecodeMorton2X_le_mortonMaxX h) (mortonMaxX_lt_mortonWidth N),
      lt_of_le_of_lt (DecodeMorton2Y_le_mortonMaxY h) (mortonMaxY_lt_mortonHeight N)⟩
  · intro N hbudget
    have hx : mortonMaxX N ≤ 8191 := by
      apply foldl_max_le _ _ _ (by norm_num)
      intro a ha
      rcases List.mem_map.mp ha with ⟨i, hi, rfl⟩
      have hiN : i < 2 ^ (2 * 13) := by
        have := List.mem_range.mp hi
        have h26 : (8192 : ℕ) * 8192 = 2 ^ (2 * 13) := by norm_num
        omega
      have := DecodeMorton2X_lt hiN
      omega
    have hy : mortonMaxY N ≤ 8191 := by
      apply foldl_max_le _ _ _ (by norm_num)
      intro a ha
      rcases List.mem_map.mp ha with ⟨i, hi, rfl⟩
      have hiN : i < 2 ^ (2 * 13 + 1) := by
        have := List.mem_range.mp hi
        have h26 : (8192 : ℕ) * 8192 ≤ 2 ^ (2 * 13 + 1) := by norm_num
        omega
      have := DecodeMorton2Y_lt hiN
      omega
    constructor
    · unfold mortonWidth
      omega
    · unfold mortonHeight
      omega

/-- C10, witness: the theorem at the concrete index 3 of a 5-element buffer
and at the full pixel budget. -/
theorem c10_zcurve_bounds_witness :
    (DecodeMorton2X 3 < mortonWidth 5 ∧ DecodeMorton2Y 3 < mortonHeight 5) ∧
    (mortonWidth 67108864 ≤ 8192 ∧ mortonHeight 67108864 ≤ 8192) :=
  ⟨c10_zcurve_bounds.2.1 5 3 (by norm_num),
   c10_zcurve_bounds.2.2 67108864 (by norm_num)⟩

/-! ## Buffer-writing helper lemmas -/

/-- `writeOffsets` preserves the buffer length. -/
theorem writeOffsets_length (original : List Vec3) (start : ℕ) :
    ∀ (vs : List Vec3) (k : ℕ) (buf : List Pix),
      (writeOffsets original start vs k buf).length = buf.length
  | [], _, _ => rfl
  | _ :: rest, k, buf => by
      rw [writeOffsets, writeOffsets_length original start rest (k + 1), List.length_set]

/-- `writeOffsets` only writes at slots `≥ start + k`. -/
theorem writeOffsets_getElem_lt (original : List Vec3) (start : ℕ) :
    ∀ (vs : List Vec3) (k : ℕ) (buf : List Pix) (j : ℕ), j < start + k →
      (writeOffsets original start vs k buf)[j]? = buf[j]?
  | [], _, _, _, _ => rfl
  | _ :: rest, k, buf, j, hj => by
      rw [writeOffsets, writeOffsets_getElem_lt original start rest (k + 1) _ j (by omega),
        List.getElem?_set_ne (by omega)]

/-- Slot `start + k + m` of a `writeOffsets` run over vertices `vs` (walked
from running index `k`) holds the delta pixel of vertex `m` of the run. -/
theorem writeOffsets_getElem_hit (original : List Vec3) (start : ℕ) :
    ∀ (vs : List Vec3) (k : ℕ) (buf : List Pix) (m : ℕ),
      m < vs.length → start + k + m < buf.length →
      (writeOffsets original start vs k buf)[start + k + m]? =
        some (offsetPix ((vs.getD m ⟨0, 0, 0⟩).sub (original.getD (k + m) ⟨0, 0, 0⟩)))
  | [], _, _, m, hm, _ => by simp at hm
  | p :: rest, k, buf, 0, hm, hb => by
      rw [writeOffsets, writeOffsets_getElem_lt original start rest (k + 1) _ _ (by omega)]
      simp only [Nat.add_zero]
      rw [List.getElem?_set_self (by omega)]
      rfl
  | p :: rest, k, buf, m + 1, hm, hb => by
      rw [writeOffsets]
      have hidx : start + k + (m + 1) = start + (k + 1) + m := by omega
      rw [hidx, writeOffsets_getElem_hit original start rest (k + 1) _ m
        (by simpa using Nat.lt_of_succ_lt_succ hm)
        (by rw [List.length_set]; omega)]
      have hk : k + 1 + m = k + (m + 1) := by omega
      rw [hk]
      rfl

/-- `writeQuats` preserves the buffer length. -/
theorem writeQuats_length (originalL : List Corner) (start : ℕ) :
    ∀ (ls : List Corner) (k : ℕ) (buf : List Pix),
      (writeQuats originalL start ls k buf).length = buf.length
  | [], _, _ => rfl
  | _ :: rest, k, buf => by
      rw [writeQuats, writeQuats_length originalL start rest (k + 1), List.length_set]

/-- A slot that coincides with no write position of a `writeQuats` run is
left unchanged. -/
theorem writeQuats_getElem_ne (originalL : List Corner) (start : ℕ) :
    ∀ (ls : List Corner) (k : ℕ) (buf : List Pix) (j : ℕ),
      (∀ i, i < ls.length → j ≠ start + (ls.getD i defaultCorner).vertex_index) →
      (writeQuats originalL start ls k buf)[j]? = buf[j]?
  | [], _, _, _, _ => rfl
  | l :: rest, k, buf, j, hj => by
      rw [writeQuats, writeQuats_getElem_ne originalL start rest (k + 1) _ j
        (fun i hi => hj (i + 1) (by simpa using Nat.succ_lt_succ hi)),
        List.getElem?_set_ne]
      exact fun h => hj 0 (by simp) h.symm

/-- `writeQuats` only writes at slots `≥ start`. -/
theorem writeQuats_getElem_lt (originalL : List Corner) (start : ℕ) :
    ∀ (ls : List Corner) (k : ℕ) (buf : List Pix) (j : ℕ), j < start →
      (writeQuats originalL start ls k buf)[j]? = buf[j]?
  | ls, k, buf, j, hj =>
      writeQuats_getElem_ne originalL start ls k buf j (fun i _ => by omega)

/-- When the loops of the run have `vertex_index` equal to their own running
index (the 1:1 corner/vertex state the design assumes), slot `start + k + m`
of a `writeQuats` run holds the quaternion pixel of corner `m` of the run
against reference corner `originalL[k + m]`. -/
theorem writeQuats_getElem_hit (originalL : List Corner) (start : ℕ) :
    ∀ (ls : List Corner) (k : ℕ) (buf : List Pix) (m : ℕ),
      m < ls.length → start + k + m < buf.length →
      (∀ i, i < ls.length → (ls.getD i defaultCorner).vertex_index = k + i) →
      (writeQuats originalL start ls k buf)[start + k + m]? =
        some (quatPix (cornerQuat (originalL.getD (k + m) defaultCorner)
          (ls.getD m defaultCorner)))
  | [], _, _, m, hm, _, _ => by simp at hm
  | l :: rest, k, buf, 0, hm, hb, hvi => by
      have hl : l.vertex_index = k := by simpa using hvi 0 (by simp)
      rw [writeQuats, writeQuats_getElem_ne originalL start rest (k + 1) _ _
        (fun i hi => by
          have := hvi (i + 1) (by simpa using Nat.succ_lt_succ hi)
          simp only [List.getD_cons_succ] at this
          rw [this]
          omega),
        hl]
      simp only [Nat.add_zero]
      rw [List.getElem?_set_self (by omega)]
      rfl
  | l :: rest, k, buf, m + 1, hm, hb, hvi => by
      rw [writeQuats]
      have hidx : start + k + (m + 1) = start + (k + 1) + m := by omega
      rw [hidx, writeQuats_getElem_hit originalL start rest (k + 1) _ m
        (by simpa using Nat.lt_of_succ_lt_succ hm)
        (by rw [List.length_set]; omega)
        (fun i hi => by
          have := hvi (i + 1) (by simpa using Nat.succ_lt_succ hi)
          simpa [Nat.add_assoc, Nat.add_comm 1 i] using this)]
      have hk : k + 1 + m = k + (m + 1) := by omega
      rw [hk]
      rfl

/-- The frame loop preserves both buffer lengths. -/
theorem framesLoop_length (original : List Vec3) (originalL : List Corner) :
    ∀ (ms : List MeshData) (start : ℕ) (bo bn : List Pix),
      (framesLoop original originalL ms start (bo, bn)).1.length = bo.length ∧
      (framesLoop original originalL ms start (bo, bn)).2.length = bn.length
  | [], _, _, _ => ⟨rfl, rfl⟩
  | me :: rest, start, bo, bn => by
      rw [framesLoop]
      obtain ⟨h1, h2⟩ := framesLoop_length original originalL rest
        (start + me.vertices.length)
        (writeOffsets original start me.vertices 0 bo)
        (writeQuats originalL start me.loops 0 bn)
      exact ⟨by rw [h1, writeOffsets_length original start me.vertices 0 bo],
        by rw [h2, writeQuats_length originalL start me.loops 0 bn]⟩

/-- The frame loop never writes below `start`: slots `< start` keep their
incoming value in both buffers. -/
theorem framesLoop_getElem_lt (original : List Vec3) (originalL : List Corner) :
    ∀ (ms : List MeshData) (start : ℕ) (bo bn : List Pix) (j : ℕ), j < start →
      (framesLoop original originalL ms start (bo, bn)).1[j]? = bo[j]? ∧
      (framesLoop original originalL ms start (bo, bn)).2[j]? = bn[j]?
  | [], _, _, _, _, _ => ⟨rfl, rfl⟩
  | me :: rest, start, bo, bn, j, hj => by
      rw [framesLoop]
      obtain ⟨h1, h2⟩ := framesLoop_getElem_lt original originalL rest
        (start + me.vertices.length)
        (writeOffsets original start me.vertices 0 bo)
        (writeQuats originalL start me.loops 0 bn) j (by omega)
      exact ⟨by rw [h1, writeOffsets_getElem_lt original start me.vertices 0 bo j (by omega)],
        by rw [h2, writeQuats_getElem_lt originalL start me.loops 0 bn j hj]⟩

/-- Offset-buffer content of the frame loop: when every frame carries
`vc` vertices, slot `start + f*vc + v` holds the delta of vertex `v` of
frame `f` against `original`. -/
theorem framesLoop_fst_getElem (original : List Vec3) (originalL : List Corner) (vc : ℕ) :
    ∀ (ms : List MeshData) (start : ℕ) (bo bn : List Pix) (f v : ℕ),
      (∀ m ∈ ms, m.vertices.length = vc) → f < ms.length → v < vc →
      start + ms.length * vc ≤ bo.length →
      (framesLoop original originalL ms start (bo, bn)).1[start + f * vc + v]? =
        some (offsetPix (((ms.getD f ⟨[], []⟩).vertices.getD v ⟨0, 0, 0⟩).sub
          (original.getD v ⟨0, 0, 0⟩)))
  | [], _, _, _, f, _, _, hf, _, _ => by simp at hf
  | me :: rest, start, bo, bn, 0, v, hvc, hf, hv, hlen => by
      have hmv : me.vertices.length = vc := hvc me (List.mem_cons_self me rest)
      rw [framesLoop]
      have h1 : start + 0 * vc + v < start + me.vertices.length := by
        rw [hmv]; omega
      rw [(framesLoop_getElem_lt original originalL rest _ _ _ _ h1).1]
      have h2 : start + 0 * vc + v = start + 0 + v := by omega
      have hbound : start + 0 + v < bo.length := by
        have hlc : (me :: rest).length = rest.length + 1 := List.length_cons me rest
        rw [hlc] at hlen
        nlinarith
      rw [h2, writeOffsets_getElem_hit original start me.vertices 0 bo v (by omega) hbound]
      simp
  | me :: rest, start, bo, bn, f + 1, v, hvc, hf, hv, hlen => by
      have hmv : me.vertices.length = vc := hvc me (List.mem_cons_self me rest)
      rw [framesLoop]
      have h2 : start + (f + 1) * vc + v = (start + me.vertices.length) + f * vc + v := by
        rw [hmv]; ring
      have hbound : (start + me.vertices.length) + rest.length * vc ≤
          (writeOffsets original start me.vertices 0 bo).length := by
        rw [writeOffsets_length original start me.vertices 0 bo, hmv]
        have hlc : (me :: rest).length = rest.length + 1 := List.length_cons me rest
        rw [hlc] at hlen
        nlinarith
      rw [h2, framesLoop_fst_getElem original originalL vc rest _ _ _ f v
        (fun m hm => hvc m (List.mem_cons_of_mem me hm))
        (by simpa using Nat.lt_of_succ_lt_succ hf) hv hbound]
      simp

/-- Rotation-buffer content of the frame loop: when every frame carries `vc`
vertices and `vc` loops whose `vertex_index` equals their own position (the
1:1 corner/vertex state), slot `start + f*vc + c` holds the quaternion pixel
of corner `c` of frame `f` against reference corner `originalL[c]`. -/
theorem framesLoop_snd_getElem (original : List Vec3) (originalL : List Corner) (vc : ℕ) :
    ∀ (ms : List MeshData) (start : ℕ) (bo bn : List Pix) (f c : ℕ),
      (∀ m ∈ ms, m.vertices.length = vc ∧ m.loops.length = vc ∧
        ∀ i, i < m.loops.length → (m.loops.getD i defaultCorner).vertex_index = i) →
      f < ms.length → c < vc →
      start + ms.length * vc ≤ bn.length →
      (framesLoop original originalL ms start (bo, bn)).2[start + f * vc + c]? =
        some (quatPix (cornerQuat (originalL.getD c defaultCorner)
          ((ms.getD f ⟨[], []⟩).loops.getD c defaultCorner)))
  | [], _, _, _, f, _, _, hf, _, _ => by simp at hf
  | me :: rest, start, bo, bn, 0, c, hwf, hf, hc, hlen => by
      obtain ⟨hmv, hml, hmi⟩ := hwf me (List.mem_cons_self me rest)
      rw [framesLoop]
      have h1 : start + 0 * vc + c < start + me.vertices.length := by
        rw [hmv]; omega
      rw [(framesLoop_getElem_lt original originalL rest _ _ _ _ h1).2]
      have h2 : start + 0 * vc + c = start + 0 + c := by omega
      have hbound : start + 0 + c < bn.length := by
        have hlc : (me :: rest).length = rest.length + 1 := List.length_cons me rest
        rw [hlc] at hlen
        nlinarith
      rw [h2, writeQuats_getElem_hit originalL start me.loops 0 bn c (by omega) hbound
        (fun i hi => by simpa using hmi i hi)]
      simp
  | me :: rest, start, bo, bn, f + 1, c, hwf, hf, hc, hlen => by
      obtain ⟨hmv, hml, hmi⟩ := hwf me (List.mem_cons_self me rest)
      rw [framesLoop]
      have h2 : start + (f + 1) * vc + c = (start + me.vertices.length) + f * vc + c := by
        rw [hmv]; ring
      have hbound : (start + me.vertices.length) + rest.length * vc ≤
          (writeQuats originalL start me.loops 0 bn).length := by
        rw [writeQuats_length originalL start me.loops 0 bn, hmv]
        have hlc : (me :: rest).length = rest.length + 1 := List.length_cons me rest
        rw [hlc] at hlen
        nlinarith
      rw [h2, framesLoop_snd_getElem original originalL vc rest _ _ _ f c
        (fun m hm => hwf m (List.mem_cons_of_mem me hm))
        (by simpa using Nat.lt_of_succ_lt_succ hf) hc hbound]
      simp

/-! ## Orthonormal-frame helper lemmas -/

/-- The model square root is exact at 1. -/
theorem ratSqrt_one : ratSqrt 1 = 1 := by
  have h1 : isqrt ((1 : ℚ).num.toNat) = 1 := rfl
  have h2 : isqrt ((1 : ℚ).den) = 1 := rfl
  rw [ratSqrt, h1, h2]
  norm_num

/-- The model square root is exact at 4. -/
theorem ratSqrt_four : ratSqrt 4 = 2 := by
  have h1 : isqrt ((4 : ℚ).num.toNat) = 2 := rfl
  have h2 : isqrt ((4 : ℚ).den) = 1 := rfl
  rw [ratSqrt, h1, h2]
  norm_num

/-- Scaling by 1 is the identity. -/
theorem Vec3.smul_one (v : Vec3) : Vec3.smul 1 v = v := by
  cases v
  simp [Vec3.smul]

/-- Normalising a unit vector returns it unchanged. -/
theorem Vec3.normalized_of_unit {v : Vec3} (h : v.dot v = 1) : v.normalized = v := by
  simp only [Vec3.normalized, h, ratSqrt_one]
  norm_num
  exact Vec3.smul_one v

/-- Lagrange identity for the squared norm of a cross product. -/
theorem cross_dot_self (N T : Vec3) :
    (N.cross T).dot (N.cross T) = N.dot N * T.dot T - N.dot T ^ 2 := by
  cases N
  cases T
  simp only [Vec3.cross, Vec3.dot]
  ring

/-- Determinant of a frame matrix `[N; T; N×T]`. -/
theorem det_ofRows_cross (N T : Vec3) :
    (Mat3.ofRows N T (N.cross T)).det = N.dot N * T.dot T - N.dot T ^ 2 := by
  cases N
  cases T
  simp only [Mat3.ofRows, Mat3.det, Vec3.cross, Vec3.dot]
  ring

/-- Cramer: the adjugate-over-determinant inverse is a left inverse whenever
the determinant is nonzero. -/
theorem Mat3.inverted_mul_self {a : Mat3} (h : a.det ≠ 0) :
    a.inverted.mul a = ⟨1, 0, 0, 0, 1, 0, 0, 0, 1⟩ := by
  obtain ⟨a00, a01, a02, a10, a11, a12, a20, a21, a22⟩ := a
  simp only [Mat3.det] at h
  simp only [Mat3.inverted, Mat3.mul, Mat3.det, Mat3.mk.injEq]
  refine ⟨?_, ?_, ?_, ?_, ?_, ?_, ?_, ?_, ?_⟩ <;>
    · field_simp
      ring

/-- For an orthonormal corner frame the normalisations in `frameMatrix` are
all identities. -/
theorem frameMatrix_of_orthonormal {l : Corner}
    (hN : l.normal.dot l.normal = 1) (hT : l.tangent.dot l.tangent = 1)
    (hNT : l.normal.dot l.tangent = 0) :
    frameMatrix l = Mat3.ofRows l.normal l.tangent (l.normal.cross l.tangent) := by
  have hB : (l.normal.cross l.tangent).dot (l.normal.cross l.tangent) = 1 := by
    rw [cross_dot_self, hN, hT, hNT]
    norm_num
  simp only [frameMatrix, Vec3.normalized_of_unit hN, Vec3.normalized_of_unit hT,
    Vec3.normalized_of_unit hB]

/-- Converting the identity matrix yields the identity quaternion. -/
theorem mat3ToQuat_identity : mat3ToQuat ⟨1, 0, 0, 0, 1, 0, 0, 0, 1⟩ = ⟨1, 0, 0, 0⟩ := by
  have hrow : (⟨1, 0, 0⟩ : Vec3).normalized = ⟨1, 0, 0⟩ ∧
      (⟨0, 1, 0⟩ : Vec3).normalized = ⟨0, 1, 0⟩ ∧
      (⟨0, 0, 1⟩ : Vec3).normalized = ⟨0, 0, 1⟩ :=
    ⟨Vec3.normalized_of_unit (by norm_num [Vec3.dot]),
     Vec3.normalized_of_unit (by norm_num [Vec3.dot]),
     Vec3.normalized_of_unit (by norm_num [Vec3.dot])⟩
  have hcols : Mat3.normalizedCols ⟨1, 0, 0, 0, 1, 0, 0, 0, 1⟩ =
      ⟨1, 0, 0, 0, 1, 0, 0, 0, 1⟩ := by
    simp [Mat3.normalizedCols, Mat3.col0, Mat3.col1, Mat3.col2, Mat3.ofCols,
      hrow.1, hrow.2.1, hrow.2.2]
  rw [mat3ToQuat, hcols]
  norm_num [Mat3.det, Mat3.neg, mat3ToQuatFast, ratSqrt_four]

/-- A corner compared against itself yields the identity quaternion,
provided its frame is orthonormal. -/
theorem cornerQuat_self {l : Corner}
    (hN : l.normal.dot l.normal = 1) (hT : l.tangent.dot l.tangent = 1)
    (hNT : l.normal.dot l.tangent = 0) :
    cornerQuat l l = ⟨1, 0, 0, 0⟩ := by
  unfold cornerQuat
  rw [frameMatrix_of_orthonormal hN hT hNT]
  have hdet : (Mat3.ofRows l.normal l.tangent (l.normal.cross l.tangent)).det = 1 := by
    rw [det_ofRows_cross, hN, hT, hNT]
    norm_num
  rw [Mat3.inverted_mul_self (by rw [hdet]; norm_num)]
  exact mat3ToQuat_identity

/-! ## Concrete rotation computation for the C3 counterexample -/

/-- The model square root is exact at `64/25`. -/
theorem ratSqrt_ex : ratSqrt (64/25) = 8/5 := by
  have hn : (64 / 25 : ℚ).num = 64 := by norm_num
  have hd : (64 / 25 : ℚ).den = 25 := by norm_num
  rw [ratSqrt, hn, hd]
  norm_num [show ((64 : ℤ).toNat) = 64 from rfl, show isqrt 64 = 8 from rfl,
    show isqrt 25 = 5 from rfl]

/-- The reference example frame matrix. -/
theorem frameMatrix_exCorner0 : frameMatrix exCorner0 = ⟨0, 0, 1, 1, 0, 0, 0, 1, 0⟩ := by
  rw [show exCorner0 = ⟨0, ⟨0, 0, 1⟩, ⟨1, 0, 0⟩⟩ from rfl]
  rw [frameMatrix_of_orthonormal (by norm_num [Vec3.dot]) (by norm_num [Vec3.dot])
    (by norm_num [Vec3.dot])]
  norm_num [Mat3.ofRows, Vec3.cross, Mat3.mk.injEq]

/-- The snapshot example frame matrix (same normal, rotated tangent). -/
theorem frameMatrix_exCorner1 :
    frameMatrix exCorner1 = ⟨0, 0, 1, 7/25, 24/25, 0, -(24/25), 7/25, 0⟩ := by
  rw [show exCorner1 = ⟨0, ⟨0, 0, 1⟩, ⟨7/25, 24/25, 0⟩⟩ from rfl]
  rw [frameMatrix_of_orthonormal (by norm_num [Vec3.dot]) (by norm_num [Vec3.dot])
    (by norm_num [Vec3.dot])]
  norm_num [Mat3.ofRows, Vec3.cross, Mat3.mk.injEq]

/-- The relative rotation of the example corners: a rotation about the
shared normal, not the identity. -/
theorem exCorner_relative_rotation :
    (frameMatrix exCorner1).inverted.mul (frameMatrix exCorner0) =
      ⟨7/25, -(24/25), 0, 24/25, 7/25, 0, 0, 0, 1⟩ := by
  rw [frameMatrix_exCorner0, frameMatrix_exCorner1]
  norm_num [Mat3.inverted, Mat3.det, Mat3.mul, Mat3.mk.injEq]

/-- The quaternion the code stores for the example corner pair: a genuine
rotation about the unchanged normal. -/
theorem cornerQuat_exCorners : cornerQuat exCorner0 exCorner1 = ⟨4/5, 0, 0, 3/5⟩ := by
  rw [cornerQuat, exCorner_relative_rotation]
  have hc0 : (⟨7/25, 24/25, 0⟩ : Vec3).normalized = ⟨7/25, 24/25, 0⟩ :=
    Vec3.normalized_of_unit (by norm_num [Vec3.dot])
  have hc1 : (⟨-(24/25), 7/25, 0⟩ : Vec3).normalized = ⟨-(24/25), 7/25, 0⟩ :=
    Vec3.normalized_of_unit (by norm_num [Vec3.dot])
  have hc2 : (⟨0, 0, 1⟩ : Vec3).normalized = ⟨0, 0, 1⟩ :=
    Vec3.normalized_of_unit (by norm_num [Vec3.dot])
  have hcols : Mat3.normalizedCols ⟨7/25, -(24/25), 0, 24/25, 7/25, 0, 0, 0, 1⟩ =
      ⟨7/25, -(24/25), 0, 24/25, 7/25, 0, 0, 0, 1⟩ := by
    simp [Mat3.normalizedCols, Mat3.col0, Mat3.col1, Mat3.col2, Mat3.ofCols, hc0, hc1, hc2]
  rw [mat3ToQuat, hcols]
  norm_num [Mat3.det, Mat3.neg, mat3ToQuatFast]
  norm_num [show (1 : ℚ) + 7/25 + 7/25 + 1 = 64/25 from by norm_num, ratSqrt_ex]

/-! ## Claim C1: Offset Buffer deltas -/

/-- C1: for well-formed input (frame 0 the reference, every frame carrying
`vertex_count` vertices), Offset Buffer slot `1 + f*vertex_count + v` holds
`snapshot.position[v] - reference.position[v]` with fourth component 1; in
particular slots 4-6 of the spec's 3-vertex/2-frame example all hold
`(0, 0, 1, 1)`. -/
theorem c1_offset_buffer :
    (∀ (meshes : List MeshData) (vertex_count frame_count f v : ℕ),
      meshes.length = frame_count →
      (∀ m ∈ meshes, m.vertices.length = vertex_count) →
      f < frame_count → v < vertex_count →
      (get_vertex_data meshes vertex_count frame_count).1[1 + f * vertex_count + v]? =
        some ⟨((meshes.getD f ⟨[], []⟩).vertices.getD v ⟨0, 0, 0⟩).x -
                ((meshes.getD 0 ⟨[], []⟩).vertices.getD v ⟨0, 0, 0⟩).x,
              ((meshes.getD f ⟨[], []⟩).vertices.getD v ⟨0, 0, 0⟩).y -
                ((meshes.getD 0 ⟨[], []⟩).vertices.getD v ⟨0, 0, 0⟩).y,
              ((meshes.getD f ⟨[], []⟩).vertices.getD v ⟨0, 0, 0⟩).z -
                ((meshes.getD 0 ⟨[], []⟩).vertices.getD v ⟨0, 0, 0⟩).z, 1⟩) ∧
    ((get_vertex_data exMeshes 3 2).1[4]? = some ⟨0, 0, 1, 1⟩ ∧
     (get_vertex_data exMeshes 3 2).1[5]? = some ⟨0, 0, 1, 1⟩ ∧
     (get_vertex_data exMeshes 3 2).1[6]? = some ⟨0, 0, 1, 1⟩) := by
  have hgen : ∀ (meshes : List MeshData) (vertex_count frame_count f v : ℕ),
      meshes.length = frame_count →
      (∀ m ∈ meshes, m.vertices.length = vertex_count) →
      f < frame_count → v < vertex_count →
      (get_vertex_data meshes vertex_count frame_count).1[1 + f * vertex_count + v]? =
        some (offsetPix (((meshes.getD f ⟨[], []⟩).vertices.getD v ⟨0, 0, 0⟩).sub
          ((meshes.getD 0 ⟨[], []⟩).vertices.getD v ⟨0, 0, 0⟩))) := by
    intro meshes vc fc f v hlen hv hf hvv
    cases meshes with
    | nil => simp at hlen; omega
    | cons m0 rest =>
        have hm0 : m0.vertices.length = vc := hv m0 (List.mem_cons_self m0 rest)
        simp only [get_vertex_data]
        have hbound : 1 + (m0 :: rest).length * vc ≤
            ((List.replicate (m0.vertices.length * (m0 :: rest).length + 1) zeroPix).set 0
              (headerPixel vc fc)).length := by
          rw [List.length_set, List.length_replicate, hm0]
          have := Nat.mul_comm (m0 :: rest).length vc
          omega
        rw [framesLoop_fst_getElem m0.vertices m0.loops vc (m0 :: rest) 1 _ _ f v hv
          (by omega) hvv hbound]
        rfl
  refine ⟨fun meshes vc fc f v h1 h2 h3 h4 => ?_, ?_, ?_, ?_⟩
  · rw [hgen meshes vc fc f v h1 h2 h3 h4]
    rfl
  all_goals
    have hex : ∀ m ∈ exMeshes, m.vertices.length = 3 := by
      intro m hm
      simp only [exMeshes, List.mem_cons, List.not_mem_nil, or_false] at hm
      rcases hm with rfl | rfl <;> rfl
  · have h := hgen exMeshes 3 2 1 0 rfl hex (by norm_num) (by norm_num)
    norm_num [exMeshes, exMesh0, exMesh1, offsetPix, Vec3.sub] at h
    exact h
  · have h := hgen exMeshes 3 2 1 1 rfl hex (by norm_num) (by norm_num)
    norm_num [exMeshes, exMesh0, exMesh1, offsetPix, Vec3.sub] at h
    exact h
  · have h := hgen exMeshes 3 2 1 2 rfl hex (by norm_num) (by norm_num)
    norm_num [exMeshes, exMesh0, exMesh1, offsetPix, Vec3.sub] at h
    exact h

/-- C1, witness: the general statement applied at frame 0, vertex 0 of the
example (a reference-frame delta, which is zero). -/
theorem c1_offset_buffer_witness :
    (get_vertex_data exMeshes 3 2).1[1]? = some ⟨0, 0, 0, 1⟩ := by
  have h := c1_offset_buffer.1 exMeshes 3 2 0 0 rfl
    (by
      intro m hm
      simp only [exMeshes, List.mem_cons, List.not_mem_nil, or_false] at hm
      rcases hm with rfl | rfl <;> rfl)
    (by norm_num) (by norm_num)
  norm_num [exMeshes, exMesh0, exMesh1] at h
  exact h

/-! ## Claims C2, C3: Rotation Buffer -/

/-- C2: under the design's assumed 1:1 corner-to-vertex correspondence
(every frame has `vertex_count` corners and corner `c` carries
`vertex_index = c`), and with every corner frame orthonormal as the data
model requires (unit normal and tangent, orthogonal — in particular the
snapshot frame matrix is invertible, so `Matrix.inverted()` does not
raise), Rotation Buffer slot `1 + f*vertex_count + c` holds the quaternion
`(q.x, q.y, q.z, q.w)` obtained by converting `R = M⁻¹ · M0`, with `M0` the
row frame matrix of the reference corner and `M` that of the snapshot
corner. -/
theorem c2_rotation_buffer :
    ∀ (meshes : List MeshData) (vertex_count frame_count f c : ℕ),
      meshes.length = frame_count →
      (∀ m ∈ meshes, m.vertices.length = vertex_count ∧ m.loops.length = vertex_count ∧
        ∀ i, i < m.loops.length → (m.loops.getD i defaultCorner).vertex_index = i) →
      (∀ m ∈ meshes, ∀ l ∈ m.loops, l.normal.dot l.normal = 1 ∧
        l.tangent.dot l.tangent = 1 ∧ l.normal.dot l.tangent = 0) →
      f < frame_count → c < vertex_count →
      (get_vertex_data meshes vertex_count frame_count).2[1 + f * vertex_count + c]? =
        some (quatPix (mat3ToQuat
          ((frameMatrix ((meshes.getD f ⟨[], []⟩).loops.getD c defaultCorner)).inverted.mul
            (frameMatrix ((meshes.getD 0 ⟨[], []⟩).loops.getD c defaultCorner))))) := by
  intro meshes vc fc f c hlen hwf _hortho hf hc
  cases meshes with
  | nil => simp at hlen; omega
  | cons m0 rest =>
      have hm0 : m0.vertices.length = vc := (hwf m0 (List.mem_cons_self m0 rest)).1
      simp only [get_vertex_data]
      have hbound : 1 + (m0 :: rest).length * vc ≤
          ((List.replicate (m0.vertices.length * (m0 :: rest).length + 1) zeroPix).set 0
            (headerPixel vc fc)).length := by
        rw [List.length_set, List.length_replicate, hm0]
        have := Nat.mul_comm (m0 :: rest).length vc
        omega
      rw [framesLoop_snd_getElem m0.vertices m0.loops vc (m0 :: rest) 1 _ _ f c hwf
        (by omega) hc hbound]
      rfl

/-- C2, witness: a one-vertex, one-frame input with an orthonormal corner;
the stored quaternion is the identity conversion result. -/
theorem c2_rotation_buffer_witness :
    (get_vertex_data [⟨[⟨0, 0, 0⟩], [exCorner0]⟩] 1 1).2[1]? = some ⟨0, 0, 0, 1⟩ := by
  have h := c2_rotation_buffer [⟨[⟨0, 0, 0⟩], [exCorner0]⟩] 1 1 0 0 rfl
    (by
      intro m hm
      simp only [List.mem_cons, List.not_mem_nil, or_false] at hm
      subst hm
      exact ⟨rfl, rfl, fun i hi => by
        have h0 : i = 0 := Nat.lt_one_iff.mp (by simpa using hi)
        subst h0
        rfl⟩)
    (by
      intro m hm l hl
      simp only [List.mem_cons, List.not_mem_nil, or_false] at hm
      subst hm
      simp only [List.mem_cons, List.not_mem_nil, or_false] at hl
      subst hl
      exact ⟨by norm_num [exCorner0, Vec3.dot], by norm_num [exCorner0, Vec3.dot],
        by norm_num [exCorner0, Vec3.dot]⟩)
    (by norm_num) (by norm_num)
  rw [h, show (([(⟨[⟨0, 0, 0⟩], [exCorner0]⟩ : MeshData)].getD 0 ⟨[], []⟩).loops.getD 0
    defaultCorner) = exCorner0 from rfl]
  have hq : cornerQuat exCorner0 exCorner0 = ⟨1, 0, 0, 0⟩ :=
    cornerQuat_self (by norm_num [exCorner0, Vec3.dot]) (by norm_num [exCorner0, Vec3.dot])
      (by norm_num [exCorner0, Vec3.dot])
  rw [cornerQuat] at hq
  rw [hq]
  rfl

/-- C3, counterexample: the snapshot corner `exCorner1` has exactly the
reference normal but a tangent rotated about it; the live code path (the
`if 1:` matrix branch of lines 228-241, which has no normal-equality
special case) stores the non-identity quaternion `(0, 0, 3/5, 4/5)` at the
corner's Rotation Buffer slot. -/
theorem c3_counterexample :
    exCorner1.normal = exCorner0.normal ∧
    (get_vertex_data exRotMeshes 1 2).2[2]? = some ⟨0, 0, 3/5, 4/5⟩ ∧
    (⟨0, 0, 3/5, 4/5⟩ : Pix) ≠ (⟨0, 0, 0, 1⟩ : Pix) := by
  refine ⟨rfl, ?_, by norm_num [Pix.mk.injEq]⟩
  have hwf : ∀ m ∈ exRotMeshes, m.vertices.length = 1 ∧ m.loops.length = 1 ∧
      ∀ i, i < m.loops.length → (m.loops.getD i defaultCorner).vertex_index = i := by
    intro m hm
    simp only [exRotMeshes, List.mem_cons, List.not_mem_nil, or_false] at hm
    rcases hm with rfl | rfl <;>
      exact ⟨rfl, rfl, fun i hi => by
        have h0 : i = 0 := Nat.lt_one_iff.mp (by simpa using hi)
        subst h0
        rfl⟩
  have hunfold : (get_vertex_data exRotMeshes 1 2).2 =
      (framesLoop [⟨0, 0, 0⟩] [exCorner0] exRotMeshes 1
        ((List.replicate 3 zeroPix).set 0 (headerPixel 1 2),
         (List.replicate 3 zeroPix).set 0 (headerPixel 1 2))).2 := rfl
  rw [hunfold,
    show (2 : ℕ) = 1 + 1 * 1 + 0 from rfl,
    framesLoop_snd_getElem [⟨0, 0, 0⟩] [exCorner0] 1 exRotMeshes 1 _ _ 1 0 hwf
      (by norm_num [exRotMeshes]) (by norm_num)
      (by norm_num [exRotMeshes, List.length_set, List.length_replicate])]
  rw [show ((exRotMeshes.getD 1 ⟨[], []⟩).loops.getD 0 defaultCorner) = exCorner1 from rfl,
    show ([exCorner0].getD 0 defaultCorner) = exCorner0 from rfl,
    cornerQuat_exCorners]
  rfl

/-- C3 (amended): equality of the full snapshot and reference corner frames
(not of the normals alone) makes the stored quaternion exactly
`(0, 0, 0, 1)`, provided the reference frame is orthonormal; with `N0 = N`
but a different tangent the stored quaternion is a rotation about the
normal (see the counterexample), and the live code path has no
normal-equality special case. -/
theorem c3_rotation_identity :
    ∀ (meshes : List MeshData) (vertex_count frame_count f c : ℕ),
      meshes.length = frame_count →
      (∀ m ∈ meshes, m.vertices.length = vertex_count ∧ m.loops.length = vertex_count ∧
        ∀ i, i < m.loops.length → (m.loops.getD i defaultCorner).vertex_index = i) →
      f < frame_count → c < vertex_count →
      (meshes.getD f ⟨[], []⟩).loops.getD c defaultCorner =
        (meshes.getD 0 ⟨[], []⟩).loops.getD c defaultCorner →
      ((meshes.getD 0 ⟨[], []⟩).loops.getD c defaultCorner).normal.dot
        ((meshes.getD 0 ⟨[], []⟩).loops.getD c defaultCorner).normal = 1 →
      ((meshes.getD 0 ⟨[], []⟩).loops.getD c defaultCorner).tangent.dot
        ((meshes.getD 0 ⟨[], []⟩).loops.getD c defaultCorner).tangent = 1 →
      ((meshes.getD 0 ⟨[], []⟩).loops.getD c defaultCorner).normal.dot
        ((meshes.getD 0 ⟨[], []⟩).loops.getD c defaultCorner).tangent = 0 →
      (get_vertex_data meshes vertex_count frame_count).2[1 + f * vertex_count + c]? =
        some ⟨0, 0, 0, 1⟩ := by
  intro meshes vc fc f c hlen hwf hf hc heq hN hT hNT
  cases meshes with
  | nil => simp at hlen; omega
  | cons m0 rest =>
      have hm0 : m0.vertices.length = vc := (hwf m0 (List.mem_cons_self m0 rest)).1
      simp only [get_vertex_data]
      have hbound : 1 + (m0 :: rest).length * vc ≤
          ((List.replicate (m0.vertices.length * (m0 :: rest).length + 1) zeroPix).set 0
            (headerPixel vc fc)).length := by
        rw [List.length_set, List.length_replicate, hm0]
        have := Nat.mul_comm (m0 :: rest).length vc
        omega
      rw [framesLoop_snd_getElem m0.vertices m0.loops vc (m0 :: rest) 1 _ _ f c hwf
        (by omega) hc hbound]
      have h0 : ((m0 :: rest).getD 0 ⟨[], []⟩) = m0 := rfl
      rw [h0] at heq hN hT hNT
      rw [heq, cornerQuat_self hN hT hNT]
      rfl

/-- C3, witness: the amended theorem at frame 0 of the two-frame rotation
example (the reference compared with itself). -/
theorem c3_rotation_identity_witness :
    (get_vertex_data exRotMeshes 1 2).2[1]? = some ⟨0, 0, 0, 1⟩ := by
  have h := c3_rotation_identity exRotMeshes 1 2 0 0 rfl
    (by
      intro m hm
      simp only [exRotMeshes, List.mem_cons, List.not_mem_nil, or_false] at hm
      rcases hm with rfl | rfl <;>
        exact ⟨rfl, rfl, fun i hi => by
          have h0 : i = 0 := Nat.lt_one_iff.mp (by simpa using hi)
          subst h0
          rfl⟩)
    (by norm_num) (by norm_num) rfl
    (by norm_num [exRotMeshes, exCorner0, Vec3.dot])
    (by norm_num [exRotMeshes, exCorner0, Vec3.dot])
    (by norm_num [exRotMeshes, exCorner0, Vec3.dot])
  norm_num at h
  exact h

/-! ## Claims C4, C5: header codec -/

/-- C4, counterexample: the header stores only the frame-count LSH channel,
so the two validator-passing inputs with frame counts 1 and 2049 — both
inside `[0, 4095]` — produce bit-identical header pixels: no decode of the
header can recover the exact frame count up to 4095. -/
theorem c4_counterexample :
    validate 1 1 = none ∧ validate 1 2049 = none ∧ (2049 : ℕ) ≠ 1 ∧
    headerPixel 1 2049 = headerPixel 1 1 := by
  refine ⟨by decide, by decide, by decide, ?_⟩
  norm_num [headerPixel, MSH, LSH]

/-- C4 (amended): on every validator-passing input, the decode rule
`(MSH + 2048)*2048 + (LSH + 2048)` recovers `vertex_count` exactly from its
two stored channels; the single stored frame-count channel recovers
`frame_count` only modulo 2048, hence exactly iff `frame_count ≤ 2047`
(not up to 4095 as claimed). -/
theorem c4_header_decode :
    ∀ vertex_count frame_count : ℕ,
      validate vertex_count frame_count = none →
      decodeMSHLSH (MSH vertex_count) (LSH vertex_count) = vertex_count ∧
      LSH frame_count + 2048 = (frame_count : ℤ) % 2048 ∧
      (frame_count < 2048 → LSH frame_count + 2048 = frame_count) := by
  intro vc fc h
  unfold decodeMSHLSH MSH LSH
  refine ⟨?_, ?_, fun hlt => ?_⟩ <;> omega

/-- C4, witness: the amended theorem at `vertex_count = 5000`,
`frame_count = 100`. -/
theorem c4_header_decode_witness :
    decodeMSHLSH (MSH 5000) (LSH 5000) = 5000 ∧ LSH 100 + 2048 = (100 : ℤ) % 2048 :=
  ⟨(c4_header_decode 5000 100 (by decide)).1, (c4_header_decode 5000 100 (by decide)).2.1⟩

/-- C5: pixel 0 of the Offset Buffer and pixel 0 of the Rotation Buffer are
identical and equal `(vertex_count_MSH, vertex_count_LSH, frame_count_LSH,
1)` with `MSH = n/2048 - 2048` and `LSH = n%2048 - 2048`; the frame-count
MSH is not part of the stored layout. -/
theorem c5_header_pixel :
    ∀ (meshes : List MeshData) (vertex_count frame_count : ℕ), meshes ≠ [] →
      (get_vertex_data meshes vertex_count frame_count).1[0]? =
          some (headerPixel vertex_count frame_count) ∧
      (get_vertex_data meshes vertex_count frame_count).2[0]? =
          some (headerPixel vertex_count frame_count) ∧
      headerPixel vertex_count frame_count =
        ⟨(((vertex_count : ℤ) / 2048 - 2048 : ℤ) : ℚ),
         (((vertex_count : ℤ) % 2048 - 2048 : ℤ) : ℚ),
         (((frame_count : ℤ) % 2048 - 2048 : ℤ) : ℚ), 1⟩ := by
  intro meshes vc fc hne
  cases meshes with
  | nil => exact absurd rfl hne
  | cons m0 rest =>
      refine ⟨?_, ?_, rfl⟩ <;>
      · simp only [get_vertex_data]
        first
          | rw [(framesLoop_getElem_lt m0.vertices m0.loops (m0 :: rest) 1 _ _ 0
                (by norm_num)).1]
          | rw [(framesLoop_getElem_lt m0.vertices m0.loops (m0 :: rest) 1 _ _ 0
                (by norm_num)).2]
        rw [List.getElem?_set_self (by rw [List.length_replicate]; omega)]

/-- C5, witness: the theorem at the worked example (`vc = 3`, `fc = 2`). -/
theorem c5_header_pixel_witness :
    (get_vertex_data exMeshes 3 2).1[0]? = some (headerPixel 3 2) ∧
    (get_vertex_data exMeshes 3 2).2[0]? = some (headerPixel 3 2) :=
  ⟨(c5_header_pixel exMeshes 3 2 (by simp [exMeshes])).1,
   (c5_header_pixel exMeshes 3 2 (by simp [exMeshes])).2.1⟩

/-! ## Claim C6: capacity validator -/

/-- C6, counterexample: the input `(4096*4095 + 1, 4097)` satisfies the
pixel-budget condition `fc*vc + 1 > 8192*8192` yet is rejected with
`VertexLimitExceeded`, because the vertex check fires first — so the set of
inputs rejected *with `PixelBudgetExceeded`* is not exactly the set
satisfying the pixel-budget condition. -/
theorem c6_counterexample :
    4097 * (4096 * 4095 + 1) + 1 > 8192 * 8192 ∧
    validate (4096 * 4095 + 1) 4097 = some EncodeError.VertexLimitExceeded ∧
    EncodeError.VertexLimitExceeded ≠ EncodeError.PixelBudgetExceeded := by
  refine ⟨by norm_num, by decide, by decide⟩

/-- C6 (amended): each capacity check characterises its own named failure
under the source's check order — vertex limit first, then frame limit, then
pixel budget (so a pixel-budget rejection happens exactly when the first
two checks pass and `fc*vc + 1 > 8192*8192`); the stated boundary inputs
pass/fail as claimed; and any failure aborts the encode with that error
before any buffer is produced. -/
theorem c6_capacity_validator :
    (∀ vc fc : ℕ, validate vc fc = some EncodeError.VertexLimitExceeded ↔
      vc > 4096 * 4095) ∧
    (∀ vc fc : ℕ, validate vc fc = some EncodeError.FrameLimitExceeded ↔
      vc ≤ 4096 * 4095 ∧ fc > 4096) ∧
    (∀ vc fc : ℕ, validate vc fc = some EncodeError.PixelBudgetExceeded ↔
      vc ≤ 4096 * 4095 ∧ fc ≤ 4096 ∧ fc * vc + 1 > 8192 * 8192) ∧
    (validate (4096 * 4095) 1 = none ∧
     validate (4096 * 4095 + 1) 1 = some EncodeError.VertexLimitExceeded) ∧
    (validate 1 4096 = none ∧ validate 1 4097 = some EncodeError.FrameLimitExceeded) ∧
    (∀ (meshes : List MeshData) (vc fc : ℕ) (zcurve : Bool) (e : EncodeError),
      validate vc fc = some e → executeEncode meshes vc fc zcurve = .error e) := by
  refine ⟨?_, ?_, ?_, ⟨by decide, by decide⟩, ⟨by decide, by decide⟩, ?_⟩
  · intro vc fc
    unfold validate
    split_ifs with h1 h2 h3 <;> simp_all
  · intro vc fc
    unfold validate
    split_ifs with h1 h2 h3 <;> simp_all
  · intro vc fc
    unfold validate
    split_ifs with h1 h2 h3 <;> simp_all
  · intro meshes vc fc zcurve e h
    simp only [executeEncode, h]

/-- C6, witness: the abort clause of the amended theorem at a concrete
over-limit input. -/
theorem c6_capacity_validator_witness :
    executeEncode [] (4096 * 4095 + 1) 1 false = .error EncodeError.VertexLimitExceeded :=
  c6_capacity_validator.2.2.2.2.2 [] (4096 * 4095 + 1) 1 false
    EncodeError.VertexLimitExceeded (by decide)

/-! ## Claim C9: linear layout -/

/-- C9: in Linear mode the two output grids both have width `vertex_count`
and height `frame_count`, the header pixel is dropped (the grid pixels are
exactly buffer pixels `[1, end)`), and flat data pixel `i` sits at cell
`(i mod width, i div width)` — identically for the Offset and Rotation
buffers. -/
theorem c9_linear_layout :
    ∀ (meshes : List MeshData) (vertex_count frame_count : ℕ) (g1 g2 : Grid),
      executeEncode meshes vertex_count frame_count false = .ok (g1, g2) →
      g1.width = vertex_count ∧ g1.height = frame_count ∧
      g2.width = vertex_count ∧ g2.height = frame_count ∧
      g1.pix = ((get_vertex_data meshes vertex_count frame_count).1).drop 1 ∧
      g2.pix = ((get_vertex_data meshes vertex_count frame_count).2).drop 1 ∧
      (∀ i : ℕ,
        gridCell g1 (i % vertex_count) (i / vertex_count) =
          ((get_vertex_data meshes vertex_count frame_count).1).getD (1 + i) zeroPix ∧
        gridCell g2 (i % vertex_count) (i / vertex_count) =
          ((get_vertex_data meshes vertex_count frame_count).2).getD (1 + i) zeroPix) := by
  intro meshes vc fc g1 g2 h
  unfold executeEncode at h
  cases hval : validate vc fc with
  | some e => rw [hval] at h; simp at h
  | none =>
      rw [hval] at h
      simp only [Bool.false_eq_true, if_false, Except.ok.injEq, Prod.mk.injEq] at h
      obtain ⟨h1, h2⟩ := h
      subst h1
      subst h2
      have hcell : ∀ (b : List Pix) (i : ℕ),
          gridCell (linearLayout vc fc b) (i % vc) (i / vc) = b.getD (1 + i) zeroPix := by
        intro b i
        unfold gridCell linearLayout
        have hidx : i / vc * vc + i % vc = i := by
          rw [Nat.mul_comm]
          exact Nat.div_add_mod i vc
        rw [hidx, List.getD_eq_getElem?_getD, List.getD_eq_getElem?_getD,
          List.getElem?_drop]
      exact ⟨rfl, rfl, rfl, rfl, rfl, rfl, fun i => ⟨hcell _ i, hcell _ i⟩⟩

/-- C9, witness: the theorem at the worked example, reading back data pixel
4 (frame 1, vertex 1) at cell `(4 mod 3, 4 div 3)`. -/
theorem c9_linear_layout_witness :
    (linearLayout 3 2 (get_vertex_data exMeshes 3 2).1).width = 3 ∧
    gridCell (linearLayout 3 2 (get_vertex_data exMeshes 3 2).1) (4 % 3) (4 / 3) =
      ((get_vertex_data exMeshes 3 2).1).getD 5 zeroPix :=
  ⟨(c9_linear_layout exMeshes 3 2 _ _ rfl).1,
   ((c9_linear_layout exMeshes 3 2 _ _ rfl).2.2.2.2.2.2 4).1⟩
